import Mathlib

/-!
Verification of `fetch_jokes.py` (JokeCamera)

A shallow embedding of the joke-fetching script: JSON values, the fetch
loop, identifier-based deduplication, JSON serialization (`json.dump` with
`indent=2, ensure_ascii=False`) and parsing (`json.loads`), and the `main`
orchestration, together with proofs of the specified properties.
-/

namespace JokeCamera

/- JSON values as decoded by `json.loads` and manipulated by the script.
Numbers are modelled as integers (the joke API's `id` values are integers;
floats do not occur in this program's data). Objects keep key order, as
Python dicts do. -/
mutual
inductive JValue : Type where
  | null : JValue
  | bool : Bool → JValue
  | num : Int → JValue
  | str : String → JValue
  | arr : JArr → JValue
  | obj : JObj → JValue

inductive JArr : Type where
  | nil : JArr
  | cons : JValue → JArr → JArr

inductive JObj : Type where
  | nil : JObj
  | cons : String → JValue → JObj → JObj
end

deriving instance DecidableEq for JValue
deriving instance DecidableEq for JArr
deriving instance DecidableEq for JObj

/-- Conversion from a Lean list (the Python list of accumulated jokes) to a
JSON array payload. -/
def listToJArr : List JValue → JArr
  | [] => JArr.nil
  | v :: vs => JArr.cons v (listToJArr vs)

/-- Keys of a JSON object, in order. -/
def okeys : JObj → List String
  | JObj.nil => []
  | JObj.cons k _ t => k :: okeys t

/-- Lookup of a key in a JSON object: first binding wins (in a Python dict
keys are unique, so this is the dict lookup). -/
def olookup : JObj → String → Option JValue
  | JObj.nil, _ => none
  | JObj.cons k v t, key => if k = key then some v else olookup t key

/-- Lookup `d.get(key)` on a decoded JSON value: `none` when the value is not an
object or the key is absent (Python returns `None`, which we fold into
`Option`: the script only ever tests the result for truthiness, and
`None` and JSON `null` are both falsy). -/
def jget (v : JValue) (key : String) : Option JValue :=
  match v with
  | JValue.obj o => olookup o key
  | _ => none

/-- Python truthiness of a decoded JSON value (`if joke_id:` etc.):
`None`/`null`, `False`, `0`, `""`, `[]` and `` empty dict `` are falsy. -/
def jtruthy : JValue → Bool
  | JValue.null => false
  | JValue.bool b => b
  | JValue.num n => n != 0
  | JValue.str s => s != ""
  | JValue.arr a => a != JArr.nil
  | JValue.obj o => o != JObj.nil

/-- Truthiness of `d.get(key)`: Python's `None` (absent key) is falsy. -/
def otruthy : Option JValue → Bool
  | none => false
  | some v => jtruthy v

/-!
`deduplicate_jokes`

```python
def deduplicate_jokes(jokes):
    seen_ids = set()
    unique_jokes = []
    for joke in jokes:
        joke_id = joke.get("id")
        if joke_id and joke_id not in seen_ids:
            seen_ids.add(joke_id)
            unique_jokes.append(joke)
    return unique_jokes
```
-/

/-- The loop of `deduplicate_jokes`, with the `seen_ids` set modelled as
the list of identifier values added so far. -/
def dedupAux (seen : List JValue) : List JValue → List JValue
  | [] => []
  | joke :: rest =>
    match jget joke "id" with
    | none => dedupAux seen rest
    | some v =>
      if jtruthy v = true ∧ v ∉ seen then
        joke :: dedupAux (v :: seen) rest
      else
        dedupAux seen rest

/-- Function `deduplicate_jokes`: keep each joke whose `id` is truthy and not seen
before, in order. -/
def deduplicate_jokes (jokes : List JValue) : List JValue :=
  dedupAux [] jokes

/-!
The fetch loop

```python
for i in range(NUM_REQUESTS):
    try:
        with urllib.request.urlopen(API_URL, timeout=10) as response:
            data = json.loads(response.read().decode())
            if data.get("error"):
                print(...); continue
            jokes = data.get("jokes", [])
            all_jokes.extend(jokes)
    except urllib.error.URLError as e: print(...)
    except Exception as e: print(...)
```

Each request's interaction with the network and the JSON decoder is
summarised by a `FetchOutcome`: either some exception was raised inside
the `try` block (network error or any other error — both `except` arms
just log and fall through), or a JSON value was decoded successfully.
-/

/-- Outcome of one request: an exception inside the `try` block (caught by
one of the two `except` arms), or a successfully decoded JSON body. -/
inductive FetchOutcome : Type where
  | exn : FetchOutcome
  | resp : JValue → FetchOutcome

deriving instance DecidableEq for FetchOutcome

def jarrToList : JArr → List JValue
  | JArr.nil => []
  | JArr.cons v t => v :: jarrToList t

/-- Extraction `data.get("jokes", [])`: the batch sequence of a decoded response,
defaulting to the empty sequence when the field is absent. (A `jokes`
field holding a non-array value does not occur in the API's schema and is
outside the model; theorems about the fetch loop restrict responses to
absent-or-array `jokes` fields.) -/
def respJokes (data : JValue) : List JValue :=
  match jget data "jokes" with
  | some (JValue.arr a) => jarrToList a
  | _ => []

/-- One iteration of the fetch loop acting on the accumulator: an
exception leaves it unchanged (logged, loop continues); a decoded
response with a truthy `error` field is skipped; otherwise the batch is
appended. -/
def fetch_step (acc : List JValue) : FetchOutcome → List JValue
  | FetchOutcome.exn => acc
  | FetchOutcome.resp data =>
    if otruthy (jget data "error") then acc
    else acc ++ respJokes data

/-- Function `fetch_jokes`, parameterised by the outcome of each request in call
order: the final accumulator. -/
def fetch_jokes (outcomes : List FetchOutcome) : List JValue :=
  outcomes.foldl fetch_step []

/-- Constant `NUM_REQUESTS = 30`. -/
def NUM_REQUESTS : Nat := 30

/-- The `for i in range(n)` loop of `fetch_jokes`, instrumented with the
list of request indices actually issued, the per-request outcome given by
an oracle. Returns (requests issued in order, final accumulator). -/
def fetch_loop (oracle : Nat → FetchOutcome) : Nat → List Nat × List JValue
  | 0 => ([], [])
  | n + 1 =>
    let p := fetch_loop oracle n
    (p.1 ++ [n], fetch_step p.2 (oracle n))

/-!
`save_jokes` / `json.dump(jokes, f, indent=2, ensure_ascii=False)`

The serializer below reproduces CPython's `json` output for `indent=2`
with `ensure_ascii=False`: items of non-empty containers each on their own
line indented two spaces per level, `", "`-free separators (`","` +
newline between items, `": "` between key and value), empty containers as
`[]` and two braces, strings with only `"`, `\` and control characters
escaped (`\b \t \n \f \r`, else `\u00xx` lowercase hex), integers in
decimal. -/

/-- Indentation: two spaces per level. -/
def pad (lvl : Nat) : List Char := List.replicate (2 * lvl) ' '

/-- Lowercase hexadecimal digit character for `n < 16`. -/
def hexChar (n : Nat) : Char :=
  if n < 10 then Char.ofNat (48 + n) else Char.ofNat (87 + n)

/-- Escaping of one character inside a JSON string
(`ensure_ascii=False`): only `"`, `\` and control characters
(code < 0x20) are escaped. -/
def escChar (c : Char) : List Char :=
  if c = '\\' then ['\\', '\\']
  else if c = '"' then ['\\', '"']
  else if c = '\n' then ['\\', 'n']
  else if c = '\t' then ['\\', 't']
  else if c = '\r' then ['\\', 'r']
  else if c = '\x08' then ['\\', 'b']
  else if c = '\x0c' then ['\\', 'f']
  else if c.toNat < 32 then
    ['\\', 'u', '0', '0', hexChar (c.toNat / 16), hexChar (c.toNat % 16)]
  else [c]

def escList (cs : List Char) : List Char :=
  cs.foldr (fun c acc => escChar c ++ acc) []

/-- A serialized JSON string literal. -/
def serStr (s : String) : List Char :=
  '"' :: (escList s.data ++ ['"'])

/-- Decimal digit character. -/
def decChar (n : Nat) : Char := Char.ofNat (48 + n)

/-- Decimal digits with explicit fuel (any fuel exceeding `n` is enough,
since a number has no more digits than its own size). -/
def natDigitsAux : Nat → Nat → List Char
  | 0, _ => []
  | fuel + 1, n =>
    if n < 10 then [decChar n]
    else natDigitsAux fuel (n / 10) ++ [decChar (n % 10)]

/-- Decimal digits of a natural number (Python's `str(n)` for `n >= 0`). -/
def natDigits (n : Nat) : List Char := natDigitsAux (n + 1) n

/-- Python's decimal rendering of an integer. -/
def serNum (n : Int) : List Char :=
  if n < 0 then '-' :: natDigits n.natAbs else natDigits n.toNat

mutual
def serVal : JValue → Nat → List Char
  | JValue.null, _ => ['n', 'u', 'l', 'l']
  | JValue.bool true, _ => ['t', 'r', 'u', 'e']
  | JValue.bool false, _ => ['f', 'a', 'l', 's', 'e']
  | JValue.num n, _ => serNum n
  | JValue.str s, _ => serStr s
  | JValue.arr JArr.nil, _ => ['[', ']']
  | JValue.arr (JArr.cons v t), lvl =>
    '[' :: '\n' :: (serArrItems (JArr.cons v t) (lvl + 1) ++
      '\n' :: (pad lvl ++ [']']))
  | JValue.obj JObj.nil, _ => ['\x7b', '\x7d']
  | JValue.obj (JObj.cons k v t), lvl =>
    '\x7b' :: '\n' :: (serObjItems (JObj.cons k v t) (lvl + 1) ++
      '\n' :: (pad lvl ++ ['\x7d']))

def serArrItems : JArr → Nat → List Char
  | JArr.nil, _ => []
  | JArr.cons v JArr.nil, lvl => pad lvl ++ serVal v lvl
  | JArr.cons v (JArr.cons w t), lvl =>
    pad lvl ++ (serVal v lvl ++ ',' :: '\n' :: serArrItems (JArr.cons w t) lvl)

def serObjItems : JObj → Nat → List Char
  | JObj.nil, _ => []
  | JObj.cons k v JObj.nil, lvl =>
    pad lvl ++ (serStr k ++ ':' :: ' ' :: serVal v lvl)
  | JObj.cons k v (JObj.cons k2 v2 t), lvl =>
    pad lvl ++ (serStr k ++ ':' :: ' ' ::
      (serVal v lvl ++ ',' :: '\n' :: serObjItems (JObj.cons k2 v2 t) lvl))
end

/-- The exact character content `save_jokes` writes to the output file:
`json.dump(jokes, f, indent=2, ensure_ascii=False)` of the list of jokes. -/
def save_jokes_content (jokes : List JValue) : List Char :=
  serVal (JValue.arr (listToJArr jokes)) 0

/-- Constant `OUTPUT_FILE = "jokes.json"`. -/
def OUTPUT_FILE : String := "jokes.json"

/-!
`main`

```python
def main():
    print("=" * 60); print("JokeAPI Fetcher"); print("=" * 60)
    all_jokes = fetch_jokes()
    if not all_jokes:
        print("No jokes were fetched!")
        return
    print("\n" + "=" * 60)
    unique_jokes = deduplicate_jokes(all_jokes)
    print("=" * 60)
    save_jokes(unique_jokes, OUTPUT_FILE)
    print("=" * 60)
    print("Done!")
```
-/

/-- The observable effects of one run of `main` after the fetch phase:
every `print`ed line in order, the file written (name and content), and
whether the deduplication and save stages were reached. -/
structure MainResult : Type where
  logs : List String
  written : Option (String × String)
  dedupRan : Bool
  saveRan : Bool

deriving instance DecidableEq for MainResult

/-- Function `main`, parameterised by the accumulator the fetch phase returned
(`all_jokes`). `if not all_jokes:` triggers exactly on the empty list. -/
def main_run (all_jokes : List JValue) : MainResult :=
  let banner : String := String.mk (List.replicate 60 '=')
  if all_jokes.isEmpty then
    { logs := [banner, "JokeAPI Fetcher", banner, "No jokes were fetched!"],
      written := none, dedupRan := false, saveRan := false }
  else
    let unique := deduplicate_jokes all_jokes
    { logs := [banner, "JokeAPI Fetcher", banner,
               "\n" ++ banner,
               "Duplicates removed: " ++ toString (all_jokes.length - unique.length),
               "Unique jokes: " ++ toString unique.length,
               banner,
               "\nJokes saved to " ++ OUTPUT_FILE,
               banner, "Done!"],
      written := some (OUTPUT_FILE, String.mk (save_jokes_content unique)),
      dedupRan := true, saveRan := true }

/-!
`json.loads`

A model of CPython's strict JSON parser, sufficient for every value this
program serializes: `null`/`true`/`false`, integers, strings with escape
sequences, arrays and objects with arbitrary inter-token whitespace.
Objects are built the way the Python parser builds a `dict` from the
parsed key/value pairs: a repeated key overwrites the value at the key's
first position. Recursion through nested values is bounded by explicit
fuel; `json_loads` supplies fuel larger than the input length, which is
enough for any parse (each nested value consumes input). -/

/-- JSON whitespace: space, tab, newline, carriage return. -/
def isWsChar (c : Char) : Bool :=
  c = ' ' || c = '\t' || c = '\n' || c = '\r'

/-- Decimal digit characters `0`-`9`. -/
def isDigitChar (c : Char) : Bool :=
  48 ≤ c.toNat && c.toNat ≤ 57

def skipWs : List Char → List Char
  | [] => []
  | c :: rest => if isWsChar c then skipWs rest else c :: rest

/-- Value of one hexadecimal digit character. -/
def hexVal (c : Char) : Option Nat :=
  if 48 ≤ c.toNat && c.toNat ≤ 57 then some (c.toNat - 48)
  else if 97 ≤ c.toNat && c.toNat ≤ 102 then some (c.toNat - 87)
  else if 65 ≤ c.toNat && c.toNat ≤ 70 then some (c.toNat - 55)
  else none

/-- The single-character escape sequences accepted after a backslash. -/
def unescape (c : Char) : Option Char :=
  if c = '"' then some '"'
  else if c = '\\' then some '\\'
  else if c = '/' then some '/'
  else if c = 'b' then some '\x08'
  else if c = 'f' then some '\x0c'
  else if c = 'n' then some '\n'
  else if c = 'r' then some '\r'
  else if c = 't' then some '\t'
  else none

/- Parsing the body of a string literal after the opening quote: the
decoded characters and the input after the closing quote. Raw control
characters are rejected (strict mode), escapes are decoded, `\uXXXX`
yields the character with that code. Split into three functions the way
CPython's scanner treats a backslash and a `\uXXXX` escape. -/
mutual
def parseStringBody : List Char → Option (List Char × List Char)
  | [] => none
  | c :: rest =>
    if c = '"' then some ([], rest)
    else if c = '\\' then parseEscape rest
    else if c.toNat < 32 then none
    else (parseStringBody rest).map (fun p => (c :: p.1, p.2))

def parseEscape : List Char → Option (List Char × List Char)
  | [] => none
  | e :: rest2 =>
    if e = 'u' then parseUEscape rest2
    else
      match unescape e with
      | some u => (parseStringBody rest2).map (fun p => (u :: p.1, p.2))
      | none => none

def parseUEscape : List Char → Option (List Char × List Char)
  | h1 :: h2 :: h3 :: h4 :: rest3 =>
    (match hexVal h1, hexVal h2, hexVal h3, hexVal h4 with
     | some a, some b, some c2, some d =>
       (parseStringBody rest3).map
         (fun p => (Char.ofNat (((a * 16 + b) * 16 + c2) * 16 + d) :: p.1, p.2))
     | _, _, _, _ => none)
  | _ => none
end

/-- Consume a run of decimal digits, accumulating their value. -/
def parseDigitsAux : List Char → Nat → Nat × List Char
  | [], acc => (acc, [])
  | c :: rest, acc =>
    if isDigitChar c then parseDigitsAux rest (10 * acc + (c.toNat - 48))
    else (acc, c :: rest)

/-- Match an exact sequence of characters. -/
def expectChars : List Char → List Char → Option (List Char)
  | [], s => some s
  | _ :: _, [] => none
  | c :: cs, d :: s => if d = c then expectChars cs s else none

/-- Python `dict` update: if the key is present, overwrite its value in place;
otherwise append the binding. -/
def objInsert : JObj → String → JValue → JObj
  | JObj.nil, k, v => JObj.cons k v JObj.nil
  | JObj.cons k2 v2 t, k, v =>
    if k2 = k then JObj.cons k2 v t else JObj.cons k2 v2 (objInsert t k v)

def objReinsertAux (acc : JObj) : JObj → JObj
  | JObj.nil => acc
  | JObj.cons k v t => objReinsertAux (objInsert acc k v) t

/-- Building a Python `dict` from parsed key/value pairs in order. -/
def objReinsert (o : JObj) : JObj := objReinsertAux JObj.nil o

mutual
/-- Parse one JSON value (after skipping whitespace); returns the value
and the unconsumed input. -/
def parseValue : Nat → List Char → Option (JValue × List Char)
  | 0, _ => none
  | fuel + 1, s =>
    match skipWs s with
    | [] => none
    | c :: r =>
      if c = 'n' then
        (expectChars ['u', 'l', 'l'] r).map (fun r2 => (JValue.null, r2))
      else if c = 't' then
        (expectChars ['r', 'u', 'e'] r).map (fun r2 => (JValue.bool true, r2))
      else if c = 'f' then
        (expectChars ['a', 'l', 's', 'e'] r).map (fun r2 => (JValue.bool false, r2))
      else if c = '"' then
        (parseStringBody r).map (fun p => (JValue.str (String.mk p.1), p.2))
      else if c = '[' then
        match skipWs r with
        | [] => none
        | c2 :: r2 =>
          if c2 = ']' then some (JValue.arr JArr.nil, r2)
          else (parseArrItems fuel (c2 :: r2)).map (fun p => (JValue.arr p.1, p.2))
      else if c = '\x7b' then
        match skipWs r with
        | [] => none
        | c2 :: r2 =>
          if c2 = '\x7d' then some (JValue.obj JObj.nil, r2)
          else
            (parseObjItems fuel (c2 :: r2)).map
              (fun p => (JValue.obj (objReinsert p.1), p.2))
      else if c = '-' then
        match r with
        | [] => none
        | d :: r2 =>
          if isDigitChar d then
            let p := parseDigitsAux r2 (d.toNat - 48)
            some (JValue.num (-(p.1 : Int)), p.2)
          else none
      else if isDigitChar c then
        let p := parseDigitsAux r (c.toNat - 48)
        some (JValue.num (p.1 : Int), p.2)
      else none

/-- Parse the items of a non-empty array and the closing bracket. -/
def parseArrItems : Nat → List Char → Option (JArr × List Char)
  | 0, _ => none
  | fuel + 1, s =>
    match parseValue fuel s with
    | none => none
    | some (v, r) =>
      match skipWs r with
      | [] => none
      | c :: r2 =>
        if c = ']' then some (JArr.cons v JArr.nil, r2)
        else if c = ',' then
          match parseArrItems fuel r2 with
          | some (t, r3) => some (JArr.cons v t, r3)
          | none => none
        else none

/-- Parse the members of a non-empty object and the closing brace,
returning the raw key/value pairs in source order. -/
def parseObjItems : Nat → List Char → Option (JObj × List Char)
  | 0, _ => none
  | fuel + 1, s =>
    match skipWs s with
    | [] => none
    | c :: r =>
      if c = '"' then
        match parseStringBody r with
        | none => none
        | some (kcs, r1) =>
          match skipWs r1 with
          | [] => none
          | c2 :: r2 =>
            if c2 = ':' then
              match parseValue fuel r2 with
              | none => none
              | some (v, r3) =>
                match skipWs r3 with
                | [] => none
                | c3 :: r4 =>
                  if c3 = '\x7d' then
                    some (JObj.cons (String.mk kcs) v JObj.nil, r4)
                  else if c3 = ',' then
                    match parseObjItems fuel r4 with
                    | some (t, r5) => some (JObj.cons (String.mk kcs) v t, r5)
                    | none => none
                  else none
            else none
      else none
end

/-- Decoding `json.loads` of a whole document: parse one value with fuel exceeding
the input length, then require only whitespace to remain. -/
def json_loads (s : List Char) : Option JValue :=
  match parseValue (s.length + 1) s with
  | some (v, rest) => if skipWs rest = [] then some v else none
  | none => none

/-!
Lemmas about `deduplicate_jokes`
-/

/-- Every record kept by the dedup loop carries a truthy identifier that
was not in `seen_ids` when the loop started. -/
theorem dedupAux_mem (l : List JValue) :
    ∀ seen j, j ∈ dedupAux seen l →
      ∃ w, jget j "id" = some w ∧ jtruthy w = true ∧ w ∉ seen := by
  induction l with
  | nil => intro seen j h; simp [dedupAux] at h
  | cons joke rest ih =>
    intro seen j h
    cases hid : jget joke "id" with
    | none => simp only [dedupAux, hid] at h; exact ih seen j h
    | some v =>
      simp only [dedupAux, hid] at h
      by_cases hc : jtruthy v = true ∧ v ∉ seen
      · rw [if_pos hc] at h
        rcases List.mem_cons.mp h with rfl | h2
        · exact ⟨v, hid, hc.1, hc.2⟩
        · rcases ih _ j h2 with ⟨w, hw1, hw2, hw3⟩
          refine ⟨w, hw1, hw2, fun hmem => hw3 (List.mem_cons_of_mem _ hmem)⟩
      · rw [if_neg hc] at h
        exact ih seen j h

/-- The identifiers of the kept records are pairwise distinct. -/
theorem dedupAux_ids_nodup (l : List JValue) :
    ∀ seen, ((dedupAux seen l).map (fun j => jget j "id")).Nodup := by
  induction l with
  | nil => intro seen; simp [dedupAux]
  | cons joke rest ih =>
    intro seen
    cases hid : jget joke "id" with
    | none => simp only [dedupAux, hid]; exact ih seen
    | some v =>
      simp only [dedupAux, hid]
      by_cases hc : jtruthy v = true ∧ v ∉ seen
      · rw [if_pos hc]
        refine List.nodup_cons.mpr ⟨?_, ih (v :: seen)⟩
        intro hmem
        rcases List.mem_map.mp hmem with ⟨j, hj, hjid⟩
        rcases dedupAux_mem rest _ j hj with ⟨w, hw1, _, hw3⟩
        have hjid2 : jget j "id" = jget joke "id" := hjid
        rw [hw1, hid, Option.some.injEq] at hjid2
        exact hw3 (by rw [hjid2]; exact List.mem_cons_self _ _)
      · rw [if_neg hc]
        exact ih seen

/-- The dedup loop output is a subsequence of its input. -/
theorem dedupAux_sublist (l : List JValue) :
    ∀ seen, (dedupAux seen l).Sublist l := by
  induction l with
  | nil => intro seen; simp [dedupAux]
  | cons joke rest ih =>
    intro seen
    cases hid : jget joke "id" with
    | none => simp only [dedupAux, hid]; exact (ih seen).cons joke
    | some v =>
      simp only [dedupAux, hid]
      by_cases hc : jtruthy v = true ∧ v ∉ seen
      · rw [if_pos hc]; exact (ih (v :: seen)).cons₂ joke
      · rw [if_neg hc]; exact (ih seen).cons joke

/-- A truthy value is never equal to a value that is not truthy. -/
theorem truthy_ne {w v : JValue} (hw : jtruthy w = true) (hv : jtruthy v = false) :
    w ≠ v := by
  intro h
  rw [h, hv] at hw
  exact Bool.noConfusion hw

/-- Every kept record is the first record of the input carrying its
identifier: the input splits around it and no earlier record has an equal
identifier. -/
theorem dedupAux_first_occurrence (l : List JValue) :
    ∀ seen j, j ∈ dedupAux seen l →
      ∃ l1 l2, l = l1 ++ j :: l2 ∧ ∀ j2 ∈ l1, jget j2 "id" ≠ jget j "id" := by
  induction l with
  | nil => intro seen j h; simp [dedupAux] at h
  | cons joke rest ih =>
    intro seen j h
    cases hid : jget joke "id" with
    | none =>
      simp only [dedupAux, hid] at h
      rcases dedupAux_mem rest seen j h with ⟨w, hw1, _, _⟩
      rcases ih seen j h with ⟨l1, l2, rfl, hfirst⟩
      refine ⟨joke :: l1, l2, rfl, ?_⟩
      intro j2 hj2
      rcases List.mem_cons.mp hj2 with rfl | hj2'
      · rw [hid, hw1]; exact fun hh => Option.noConfusion hh
      · exact hfirst j2 hj2'
    | some v =>
      simp only [dedupAux, hid] at h
      by_cases hc : jtruthy v = true ∧ v ∉ seen
      · rw [if_pos hc] at h
        rcases List.mem_cons.mp h with rfl | h2
        · exact ⟨[], rest, rfl, by simp⟩
        · rcases dedupAux_mem rest _ j h2 with ⟨w2, hw21, _, hw23⟩
          rcases ih _ j h2 with ⟨l1, l2, rfl, hfirst⟩
          refine ⟨joke :: l1, l2, rfl, ?_⟩
          intro j2 hj2
          rcases List.mem_cons.mp hj2 with rfl | hj2'
          · rw [hid, hw21]
            intro hh
            rw [Option.some.injEq] at hh
            exact hw23 (by rw [← hh]; exact List.mem_cons_self _ _)
          · exact hfirst j2 hj2'
      · rw [if_neg hc] at h
        rcases dedupAux_mem rest seen j h with ⟨w, hw1, hw2, hw3⟩
        rcases ih seen j h with ⟨l1, l2, rfl, hfirst⟩
        refine ⟨joke :: l1, l2, rfl, ?_⟩
        intro j2 hj2
        rcases List.mem_cons.mp hj2 with rfl | hj2'
        · rw [hid, hw1]
          intro hh
          rw [Option.some.injEq] at hh
          rcases Decidable.not_and_iff_or_not.mp hc with hf | hseen
          · exact truthy_ne hw2 (Bool.eq_false_iff.mpr hf) hh.symm
          · exact hseen (fun hvseen => (hh ▸ hw3) hvseen)
        · exact hfirst j2 hj2'

/-- Every input record with a truthy identifier not yet seen contributes
its identifier to the output. -/
theorem dedupAux_complete (l : List JValue) :
    ∀ seen j, j ∈ l → ∀ w, jget j "id" = some w → jtruthy w = true → w ∉ seen →
      ∃ j2 ∈ dedupAux seen l, jget j2 "id" = jget j "id" := by
  induction l with
  | nil => intro seen j hj; exact absurd hj (List.not_mem_nil j)
  | cons joke rest ih =>
    intro seen j hj w hw htr hns
    rcases List.mem_cons.mp hj with rfl | hj'
    · simp only [dedupAux, hw]
      rw [if_pos ⟨htr, hns⟩]
      exact ⟨j, List.mem_cons_self _ _, hw⟩
    · cases hid : jget joke "id" with
      | none =>
        simp only [dedupAux, hid]
        exact ih seen j hj' w hw htr hns
      | some v =>
        simp only [dedupAux, hid]
        by_cases hc : jtruthy v = true ∧ v ∉ seen
        · rw [if_pos hc]
          by_cases hvw : w = v
          · exact ⟨joke, List.mem_cons_self _ _, by rw [hid, hw, hvw]⟩
          · rcases ih (v :: seen) j hj' w hw htr
              (fun hmem => by
                rcases List.mem_cons.mp hmem with h1 | h2
                · exact hvw h1
                · exact hns h2) with ⟨j2, hj2, he⟩
            exact ⟨j2, List.mem_cons_of_mem _ hj2, he⟩
        · rw [if_neg hc]
          exact ih seen j hj' w hw htr hns

/-- A list of records with truthy, pairwise-distinct, unseen identifiers
passes through the dedup loop unchanged. -/
theorem dedupAux_fixed (l : List JValue) :
    ∀ seen, (∀ j ∈ l, ∃ w, jget j "id" = some w ∧ jtruthy w = true ∧ w ∉ seen) →
      ((l.map (fun j => jget j "id")).Nodup) → dedupAux seen l = l := by
  induction l with
  | nil => intro seen _ _; rfl
  | cons joke rest ih =>
    intro seen hall hnd
    rw [List.map_cons, List.nodup_cons] at hnd
    obtain ⟨hhead, htail⟩ := hnd
    rcases hall joke (List.mem_cons_self _ _) with ⟨w, hw, htr, hns⟩
    simp only [dedupAux, hw]
    rw [if_pos ⟨htr, hns⟩]
    congr 1
    apply ih (w :: seen) _ htail
    intro j hj
    rcases hall j (List.mem_cons_of_mem _ hj) with ⟨w2, hw2, htr2, hns2⟩
    refine ⟨w2, hw2, htr2, ?_⟩
    intro hmem
    rcases List.mem_cons.mp hmem with h1 | h2
    · exact hhead (List.mem_map.mpr ⟨j, hj, by rw [hw2, h1, ← hw]⟩)
    · exact hns2 h2

/-- If no input record has a truthy identifier, the dedup loop keeps
nothing. -/
theorem dedupAux_all_falsy (l : List JValue) :
    ∀ seen, (∀ j ∈ l, otruthy (jget j "id") = false) → dedupAux seen l = [] := by
  induction l with
  | nil => intro seen _; rfl
  | cons joke rest ih =>
    intro seen hall
    cases hid : jget joke "id" with
    | none =>
      simp only [dedupAux, hid]
      exact ih seen (fun j hj => hall j (List.mem_cons_of_mem _ hj))
    | some v =>
      have hfal := hall joke (List.mem_cons_self _ _)
      rw [hid] at hfal
      simp only [otruthy] at hfal
      simp only [dedupAux, hid]
      rw [if_neg (fun hc => by rw [hc.1] at hfal; exact Bool.noConfusion hfal)]
      exact ih seen (fun j hj => hall j (List.mem_cons_of_mem _ hj))

/-!
Lemmas about the fetch loop
-/

/-- The batch appended for one outcome: `none` when the request raised or
the response signalled an API error, otherwise the (possibly empty) batch
sequence. -/
def successJokes : FetchOutcome → Option (List JValue)
  | FetchOutcome.exn => none
  | FetchOutcome.resp data =>
    if otruthy (jget data "error") then none else some (respJokes data)

/-- The response's `jokes` field is absent or an array — the shape the
API schema guarantees, within which `respJokes` models
`data.get("jokes", [])` exactly. -/
def jokesFieldOk (data : JValue) : Bool :=
  match jget data "jokes" with
  | none => true
  | some (JValue.arr _) => true
  | _ => false

def outcomeOk : FetchOutcome → Bool
  | FetchOutcome.exn => true
  | FetchOutcome.resp data => jokesFieldOk data

theorem fetch_foldl (outcomes : List FetchOutcome) :
    ∀ acc, outcomes.foldl fetch_step acc =
      acc ++ (outcomes.filterMap successJokes).flatten := by
  induction outcomes with
  | nil => intro acc; simp
  | cons o rest ih =>
    intro acc
    rw [List.foldl_cons, ih]
    cases o with
    | exn => simp [fetch_step, successJokes]
    | resp data =>
      by_cases herr : otruthy (jget data "error") = true
      · simp [fetch_step, successJokes, herr]
      · rw [Bool.not_eq_true] at herr
        simp [fetch_step, successJokes, herr]

/-- The instrumented fetch loop issues exactly the request indices
`0, …, n-1`, in order, and accumulates as `fetch_jokes` does. -/
theorem fetch_loop_spec (oracle : Nat → FetchOutcome) :
    ∀ n, fetch_loop oracle n = (List.range n, fetch_jokes ((List.range n).map oracle))
  | 0 => rfl
  | n + 1 => by
    rw [fetch_loop, fetch_loop_spec oracle n,
      List.range_succ, List.map_append, List.map_singleton]
    unfold fetch_jokes
    rw [List.foldl_append]
    rfl

/-!
Demo records for witnesses
-/

def jokeA : JValue :=
  JValue.obj (JObj.cons "id" (JValue.num 1)
    (JObj.cons "joke" (JValue.str "first") JObj.nil))

def jokeB : JValue :=
  JValue.obj (JObj.cons "id" (JValue.num 2)
    (JObj.cons "joke" (JValue.str "second") JObj.nil))

/-- Same identifier as `jokeA`, different body. -/
def jokeC : JValue :=
  JValue.obj (JObj.cons "id" (JValue.num 1)
    (JObj.cons "joke" (JValue.str "third") JObj.nil))

def jokeD : JValue :=
  JValue.obj (JObj.cons "id" (JValue.num 3) JObj.nil)

def jokeNoId : JValue :=
  JValue.obj (JObj.cons "joke" (JValue.str "anonymous") JObj.nil)

def jokeNullId : JValue :=
  JValue.obj (JObj.cons "id" JValue.null JObj.nil)

def jokeZeroId : JValue :=
  JValue.obj (JObj.cons "id" (JValue.num 0) JObj.nil)

def jokeEmptyId : JValue :=
  JValue.obj (JObj.cons "id" (JValue.str "") JObj.nil)

/-- The accumulator `[{id:1,..},{id:2,..},{id:1,..}]`. -/
def demoDup : List JValue := [jokeA, jokeB, jokeC]

/-- A 2-joke success batch (`error: false`). -/
def batch1 : JValue :=
  JValue.obj (JObj.cons "error" (JValue.bool false)
    (JObj.cons "jokes" (JValue.arr (JArr.cons jokeA (JArr.cons jokeB JArr.nil)))
      JObj.nil))

/-- An API error response (`error: true`). -/
def errorResp : JValue :=
  JValue.obj (JObj.cons "error" (JValue.bool true)
    (JObj.cons "message" (JValue.str "No matching joke found") JObj.nil))

/-- A second 2-joke success batch. -/
def batch2 : JValue :=
  JValue.obj (JObj.cons "error" (JValue.bool false)
    (JObj.cons "jokes" (JValue.arr (JArr.cons jokeC (JArr.cons jokeD JArr.nil)))
      JObj.nil))

/-- A mocked endpoint alternating a 2-joke success batch and an error
response over N=4 calls. -/
def mock4 : List FetchOutcome :=
  [FetchOutcome.resp batch1, FetchOutcome.resp errorResp,
   FetchOutcome.resp batch2, FetchOutcome.resp errorResp]

/-!
Claim theorems
-/

/-- C1: for every input list of joke records, the output of
`deduplicate_jokes` contains no two records with equal identifiers, and
whenever `main` writes a file its content is the serialization of that
deduplicated output (so the saved sequence contains no two records with
the same identifier). -/
theorem dedup_output_ids_nodup (jokes : List JValue) :
    ((deduplicate_jokes jokes).map (fun j => jget j "id")).Nodup ∧
    ∀ fc, (main_run jokes).written = some fc →
      fc.2 = String.mk (save_jokes_content (deduplicate_jokes jokes)) := by
  refine ⟨dedupAux_ids_nodup jokes [], ?_⟩
  intro fc hfc
  simp only [main_run] at hfc
  split at hfc
  · exact absurd hfc (by simp)
  · rw [← Option.some.inj hfc]

/-- Witness for C1 at `demoDup = [{id:1},{id:2},{id:1}]`. -/
theorem dedup_output_ids_nodup_witness :
    (main_run demoDup).written =
      some (OUTPUT_FILE, String.mk (save_jokes_content (deduplicate_jokes demoDup))) ∧
    ((deduplicate_jokes demoDup).map (fun j => jget j "id")).Nodup ∧
    (OUTPUT_FILE, String.mk (save_jokes_content (deduplicate_jokes demoDup))).2 =
      String.mk (save_jokes_content (deduplicate_jokes demoDup)) :=
  ⟨by decide, (dedup_output_ids_nodup demoDup).1,
   (dedup_output_ids_nodup demoDup).2 _ (by decide)⟩

/-- C2: `deduplicate_jokes` returns a subsequence of its input (relative
order of first occurrences preserved); every output record is the first
input record carrying its identifier; every input record with a truthy
identifier is represented in the output; and on
`[{id:1,..},{id:2,..},{id:1,..}]` the output is the first two records. -/
theorem dedup_keeps_first_occurrences (jokes : List JValue) :
    (deduplicate_jokes jokes).Sublist jokes ∧
    (∀ j ∈ deduplicate_jokes jokes,
      ∃ l1 l2, jokes = l1 ++ j :: l2 ∧ ∀ j2 ∈ l1, jget j2 "id" ≠ jget j "id") ∧
    (∀ j ∈ jokes, ∀ w, jget j "id" = some w → jtruthy w = true →
      ∃ j2 ∈ deduplicate_jokes jokes, jget j2 "id" = jget j "id") ∧
    deduplicate_jokes demoDup = [jokeA, jokeB] :=
  ⟨dedupAux_sublist jokes [],
   fun j hj => dedupAux_first_occurrence jokes [] j hj,
   fun j hj w hw htr => dedupAux_complete jokes [] j hj w hw htr (List.not_mem_nil w),
   by decide⟩

/-- Witness for C2 at `demoDup`: the kept `jokeA` is a first occurrence,
and the dropped duplicate `jokeC` is still represented by identifier. -/
theorem dedup_keeps_first_occurrences_witness :
    (jokeA ∈ deduplicate_jokes demoDup ∧
      ∃ l1 l2, demoDup = l1 ++ jokeA :: l2 ∧
        ∀ j2 ∈ l1, jget j2 "id" ≠ jget jokeA "id") ∧
    (jokeC ∈ demoDup ∧ jget jokeC "id" = some (JValue.num 1) ∧
      ∃ j2 ∈ deduplicate_jokes demoDup, jget j2 "id" = jget jokeC "id") :=
  ⟨⟨by decide, (dedup_keeps_first_occurrences demoDup).2.1 jokeA (by decide)⟩,
   ⟨by decide, by decide,
    (dedup_keeps_first_occurrences demoDup).2.2.1 jokeC (by decide)
      (JValue.num 1) (by decide) (by decide)⟩⟩

/-- C5: a record whose `id` field is absent (`joke.get("id")` returns
`None`) or holds JSON `null` is excluded entirely from the output of
`deduplicate_jokes`. -/
theorem missing_id_excluded (jokes : List JValue) (j : JValue)
    (h : jget j "id" = none ∨ jget j "id" = some JValue.null) :
    j ∉ deduplicate_jokes jokes := by
  intro hmem
  rcases dedupAux_mem jokes [] j hmem with ⟨w, hw1, hw2, _⟩
  rcases h with h | h
  · rw [h] at hw1; exact Option.noConfusion hw1
  · rw [h, Option.some.injEq] at hw1
    rw [← hw1] at hw2
    simp [jtruthy] at hw2

/-- Witness for C5: a record with no `id` field, and one with a `null`
`id`, are both dropped. -/
theorem missing_id_excluded_witness :
    (jget jokeNoId "id" = none ∧
      jokeNoId ∉ deduplicate_jokes [jokeNoId, jokeA]) ∧
    (jget jokeNullId "id" = some JValue.null ∧
      jokeNullId ∉ deduplicate_jokes [jokeNullId, jokeA]) :=
  ⟨⟨by decide, missing_id_excluded [jokeNoId, jokeA] jokeNoId (Or.inl (by decide))⟩,
   ⟨by decide, missing_id_excluded [jokeNullId, jokeA] jokeNullId (Or.inr (by decide))⟩⟩

/-- C9: a record whose identifier is falsy (in particular `0` or the
empty string) is excluded from the output of `deduplicate_jokes`, exactly
as if the identifier were missing. -/
theorem falsy_id_excluded (jokes : List JValue) (j v : JValue)
    (hv : jget j "id" = some v) (hf : jtruthy v = false) :
    j ∉ deduplicate_jokes jokes := by
  intro hmem
  rcases dedupAux_mem jokes [] j hmem with ⟨w, hw1, hw2, _⟩
  rw [hv, Option.some.injEq] at hw1
  rw [← hw1, hf] at hw2
  exact Bool.noConfusion hw2

/-- Witness for C9: records with `id: 0` and `id: ""` are dropped. -/
theorem falsy_id_excluded_witness :
    (jget jokeZeroId "id" = some (JValue.num 0) ∧
      jtruthy (JValue.num 0) = false ∧
      jokeZeroId ∉ deduplicate_jokes [jokeZeroId, jokeA]) ∧
    (jget jokeEmptyId "id" = some (JValue.str "") ∧
      jtruthy (JValue.str "") = false ∧
      jokeEmptyId ∉ deduplicate_jokes [jokeEmptyId, jokeA]) :=
  ⟨⟨by decide, by decide,
    falsy_id_excluded [jokeZeroId, jokeA] jokeZeroId (JValue.num 0) (by decide) (by decide)⟩,
   ⟨by decide, by decide,
    falsy_id_excluded [jokeEmptyId, jokeA] jokeEmptyId (JValue.str "") (by decide) (by decide)⟩⟩

/-- C6: deduplication is idempotent — applying `deduplicate_jokes` to its
own output yields that same output. -/
theorem dedup_idempotent (jokes : List JValue) :
    deduplicate_jokes (deduplicate_jokes jokes) = deduplicate_jokes jokes := by
  apply dedupAux_fixed
  · intro j hj
    rcases dedupAux_mem jokes [] j hj with ⟨w, hw1, hw2, _⟩
    exact ⟨w, hw1, hw2, List.not_mem_nil w⟩
  · exact dedupAux_ids_nodup jokes []

/-- C3 counterexample: on an empty accumulator the program does not log
the message `"no jokes fetched"` — the line actually printed is
`"No jokes were fetched!"`. -/
theorem empty_fetch_log_cex : "no jokes fetched" ∉ (main_run []).logs := by decide

/-- C3 amended: if the accumulator returned by the fetch phase is empty,
the program writes no output file, logs `"No jokes were fetched!"`, and
exits before attempting deduplication or save. -/
theorem empty_fetch_no_file :
    (main_run []).written = none ∧
    "No jokes were fetched!" ∈ (main_run []).logs ∧
    (main_run []).dedupRan = false ∧ (main_run []).saveRan = false := by decide

/-- C8: the fetch component performs exactly `NUM_REQUESTS = 30` requests
for every oracle of per-request outcomes — each request index is issued
exactly once, in order, with no retry and no abort, whatever each request
returns or raises (the loop body catches every exception and continues),
and the accumulator is the one `fetch_jokes` computes. -/
theorem fetch_exactly_30_requests (oracle : Nat → FetchOutcome) :
    (fetch_loop oracle NUM_REQUESTS).1 = List.range NUM_REQUESTS ∧
    NUM_REQUESTS = 30 ∧
    (fetch_loop oracle NUM_REQUESTS).2 =
      fetch_jokes ((List.range NUM_REQUESTS).map oracle) := by
  rw [fetch_loop_spec oracle NUM_REQUESTS]
  exact ⟨rfl, rfl, rfl⟩

/-- C4: for every sequence of per-request outcomes whose decoded
responses have an absent-or-array `jokes` field, the accumulator built by
the fetch loop is exactly the concatenation, in call order, of the
batches of the successful (non-error) responses — exceptions and
API-error responses contribute nothing, an absent `jokes` field
contributes the empty sequence. -/
theorem fetch_accumulates_success_batches (outcomes : List FetchOutcome)
    (hwf : ∀ o ∈ outcomes, outcomeOk o = true) :
    fetch_jokes outcomes = (outcomes.filterMap successJokes).flatten := by
  have _ := hwf
  unfold fetch_jokes
  rw [fetch_foldl outcomes []]
  rfl

/-- Witness for C4: a mocked endpoint alternating a 2-joke success batch
and an error response over N=4 calls yields exactly the jokes of the two
successful calls, in call order. -/
theorem fetch_accumulates_success_batches_witness :
    (∀ o ∈ mock4, outcomeOk o = true) ∧
    fetch_jokes mock4 = [jokeA, jokeB, jokeC, jokeD] ∧
    (mock4.filterMap successJokes).flatten = [jokeA, jokeB, jokeC, jokeD] :=
  ⟨by decide,
   by rw [fetch_accumulates_success_batches mock4 (by decide)]; decide,
   by decide⟩

/-- C10: a non-empty accumulator all of whose records have missing or
falsy identifiers does not take the empty-result early exit: dedup runs
and returns the empty list, and `save_jokes` still writes the output file
containing an empty JSON array. -/
theorem allfalsy_still_saves (jokes : List JValue) (hne : jokes ≠ [])
    (hfal : ∀ j ∈ jokes, otruthy (jget j "id") = false) :
    deduplicate_jokes jokes = [] ∧
    (main_run jokes).written = some (OUTPUT_FILE, "[]") ∧
    (main_run jokes).dedupRan = true ∧ (main_run jokes).saveRan = true := by
  have hded : deduplicate_jokes jokes = [] := dedupAux_all_falsy jokes [] hfal
  have hie : jokes.isEmpty = false := by
    cases jokes with
    | nil => exact absurd rfl hne
    | cons a l => rfl
  refine ⟨hded, ?_, ?_, ?_⟩
  · simp [main_run, hie, hded]
    rfl
  · simp [main_run, hie]
  · simp [main_run, hie]

/-- Witness for C10 at `[{id:0},{id:null},{no id}]`. -/
theorem allfalsy_still_saves_witness :
    ([jokeZeroId, jokeNullId, jokeNoId] ≠ ([] : List JValue)) ∧
    (∀ j ∈ [jokeZeroId, jokeNullId, jokeNoId], otruthy (jget j "id") = false) ∧
    (deduplicate_jokes [jokeZeroId, jokeNullId, jokeNoId] = [] ∧
      (main_run [jokeZeroId, jokeNullId, jokeNoId]).written = some (OUTPUT_FILE, "[]") ∧
      (main_run [jokeZeroId, jokeNullId, jokeNoId]).dedupRan = true ∧
      (main_run [jokeZeroId, jokeNullId, jokeNoId]).saveRan = true) :=
  ⟨by decide, by decide,
   allfalsy_still_saves [jokeZeroId, jokeNullId, jokeNoId] (by decide) (by decide)⟩

/-!
Round-trip support lemmas: whitespace, digits, numbers
-/

theorem skipWs_cons_of_ws {c : Char} (h : isWsChar c = true) (s : List Char) :
    skipWs (c :: s) = skipWs s := by
  simp only [skipWs, h, if_true]

theorem skipWs_cons_of_not_ws {c : Char} (h : isWsChar c = false) (s : List Char) :
    skipWs (c :: s) = c :: s := by
  simp only [skipWs, h, Bool.false_eq_true, if_false]

theorem skipWs_replicate_space (n : Nat) (s : List Char) :
    skipWs (List.replicate n ' ' ++ s) = skipWs s := by
  induction n with
  | zero => rfl
  | succ n ih =>
    rw [List.replicate_succ, List.cons_append, skipWs_cons_of_ws (by decide), ih]

theorem skipWs_pad (lvl : Nat) (s : List Char) :
    skipWs (pad lvl ++ s) = skipWs s :=
  skipWs_replicate_space (2 * lvl) s

theorem skipWs_idem (s : List Char) : skipWs (skipWs s) = skipWs s := by
  induction s with
  | nil => rfl
  | cons c rest ih =>
    by_cases h : isWsChar c = true
    · rw [skipWs_cons_of_ws h, ih]
    · rw [Bool.not_eq_true] at h
      rw [skipWs_cons_of_not_ws h, skipWs_cons_of_not_ws h]

theorem expectChars_self (cs : List Char) : ∀ s, expectChars cs (cs ++ s) = some s := by
  induction cs with
  | nil => intro s; rfl
  | cons c t ih =>
    intro s
    simp only [List.cons_append, expectChars, if_pos rfl]
    exact ih s

/-- Facts about the decimal digit characters, all checked by evaluation
over the ten digits. -/
theorem decChar_facts : ∀ m, m < 10 →
    isDigitChar (decChar m) = true ∧ (decChar m).toNat - 48 = m ∧
    isWsChar (decChar m) = false ∧ decChar m ≠ ']' ∧ decChar m ≠ '\x7d' ∧
    decChar m ≠ ',' ∧ decChar m ≠ 'n' ∧ decChar m ≠ 't' ∧ decChar m ≠ 'f' ∧
    decChar m ≠ '"' ∧ decChar m ≠ '[' ∧ decChar m ≠ '\x7b' ∧
    decChar m ≠ '-' := by decide

theorem natDigitsAux_irrel (n : Nat) :
    ∀ f1 f2, n < f1 → n < f2 → natDigitsAux f1 n = natDigitsAux f2 n := by
  induction n using Nat.strong_induction_on with
  | _ n ih =>
    intro f1 f2 h1 h2
    cases f1 with
    | zero => omega
    | succ a =>
      cases f2 with
      | zero => omega
      | succ b =>
        simp only [natDigitsAux]
        by_cases h10 : n < 10
        · rw [if_pos h10, if_pos h10]
        · rw [if_neg h10, if_neg h10]
          have hd : n / 10 < n := Nat.div_lt_self (by omega) (by omega)
          rw [ih (n / 10) hd a b (by omega) (by omega)]

/-- The defining recurrence of `natDigits`. -/
theorem natDigits_eq (n : Nat) :
    natDigits n = if n < 10 then [decChar n]
      else natDigits (n / 10) ++ [decChar (n % 10)] := by
  show natDigitsAux (n + 1) n = _
  simp only [natDigitsAux]
  by_cases h10 : n < 10
  · rw [if_pos h10, if_pos h10]
  · rw [if_neg h10, if_neg h10]
    have hd : n / 10 < n := Nat.div_lt_self (by omega) (by omega)
    rw [natDigitsAux_irrel (n / 10) n (n / 10 + 1) hd (by omega)]
    rfl

/-- Function `natDigits` always yields a leading decimal digit character. -/
theorem natDigits_head (n : Nat) :
    ∃ m cs, m < 10 ∧ natDigits n = decChar m :: cs := by
  induction n using Nat.strong_induction_on with
  | _ n ih =>
    rw [natDigits_eq n]
    by_cases h10 : n < 10
    · rw [if_pos h10]; exact ⟨n, [], h10, rfl⟩
    · rw [if_neg h10]
      have hd : n / 10 < n := Nat.div_lt_self (by omega) (by omega)
      rcases ih (n / 10) hd with ⟨m, cs, hm, he⟩
      exact ⟨m, cs ++ [decChar (n % 10)], hm, by rw [he]; rfl⟩

/-- Greedy digit parsing consumes exactly the digits of `natDigits n`,
shifting the accumulator by the number of digits read. -/
theorem parseDigitsAux_natDigits (n : Nat) :
    ∀ acc rest, parseDigitsAux (natDigits n ++ rest) acc =
      parseDigitsAux rest (acc * 10 ^ (natDigits n).length + n) := by
  induction n using Nat.strong_induction_on with
  | _ n ih =>
    intro acc rest
    rw [natDigits_eq n]
    by_cases h10 : n < 10
    · rw [if_pos h10]
      obtain ⟨hdig, hsub, -⟩ := decChar_facts n h10
      simp only [List.cons_append, List.nil_append, parseDigitsAux, hdig, if_true,
        List.length_singleton, pow_one, hsub]
      congr 1
      omega
    · rw [if_neg h10]
      have hd : n / 10 < n := Nat.div_lt_self (by omega) (by omega)
      rw [List.append_assoc, List.singleton_append,
        ih (n / 10) hd acc (decChar (n % 10) :: rest)]
      have hm10 : n % 10 < 10 := Nat.mod_lt n (by omega)
      obtain ⟨hdig, hsub, -⟩ := decChar_facts (n % 10) hm10
      simp only [parseDigitsAux, hdig, if_true, hsub, List.length_append,
        List.length_singleton]
      congr 1
      rw [pow_succ]
      have hdm := Nat.div_add_mod n 10
      set L := (natDigits (n / 10)).length
      set A := acc * 10 ^ L
      have : acc * (10 ^ L * 10) = 10 * A := by rw [← mul_assoc]; ring
      rw [this]
      omega

/-- Head of the input after a serialized number is not a digit, so the
greedy scan stops exactly there. -/
def noDigitHeadB : List Char → Bool
  | [] => true
  | c :: _ => !(isDigitChar c)

theorem parseDigitsAux_complete (n : Nat) (rest : List Char)
    (hrest : noDigitHeadB rest = true) :
    parseDigitsAux (natDigits n ++ rest) 0 = (n, rest) := by
  rw [parseDigitsAux_natDigits n 0 rest]
  simp only [Nat.zero_mul, Nat.zero_add]
  cases rest with
  | nil => rfl
  | cons c cs =>
    simp only [noDigitHeadB, Bool.not_eq_true'] at hrest
    simp only [parseDigitsAux, hrest, Bool.false_eq_true, if_false]

/-!
Round-trip support lemmas: string literals
-/

theorem hexVal_hexChar : ∀ m, m < 16 → hexVal (hexChar m) = some m := by decide

theorem psb_quote (s : List Char) : parseStringBody ('"' :: s) = some ([], s) := rfl

theorem psb_esc_bs (s : List Char) :
    parseStringBody ('\\' :: '\\' :: s) =
      (parseStringBody s).map (fun p => ('\\' :: p.1, p.2)) := rfl

theorem psb_esc_quote (s : List Char) :
    parseStringBody ('\\' :: '"' :: s) =
      (parseStringBody s).map (fun p => ('"' :: p.1, p.2)) := rfl

theorem psb_esc_n (s : List Char) :
    parseStringBody ('\\' :: 'n' :: s) =
      (parseStringBody s).map (fun p => ('\n' :: p.1, p.2)) := rfl

theorem psb_esc_t (s : List Char) :
    parseStringBody ('\\' :: 't' :: s) =
      (parseStringBody s).map (fun p => ('\t' :: p.1, p.2)) := rfl

theorem psb_esc_r (s : List Char) :
    parseStringBody ('\\' :: 'r' :: s) =
      (parseStringBody s).map (fun p => ('\r' :: p.1, p.2)) := rfl

theorem psb_esc_b (s : List Char) :
    parseStringBody ('\\' :: 'b' :: s) =
      (parseStringBody s).map (fun p => ('\x08' :: p.1, p.2)) := rfl

theorem psb_esc_f (s : List Char) :
    parseStringBody ('\\' :: 'f' :: s) =
      (parseStringBody s).map (fun p => ('\x0c' :: p.1, p.2)) := rfl

theorem psb_u (a b : Nat) (ha : a < 16) (hb : b < 16) (s : List Char) :
    parseStringBody ('\\' :: 'u' :: '0' :: '0' :: hexChar a :: hexChar b :: s) =
      (parseStringBody s).map (fun p => (Char.ofNat (16 * a + b) :: p.1, p.2)) := by
  have hva : hexVal (hexChar a) = some a := hexVal_hexChar a ha
  have hvb : hexVal (hexChar b) = some b := hexVal_hexChar b hb
  have h0 : parseStringBody ('\\' :: 'u' :: '0' :: '0' :: hexChar a :: hexChar b :: s) =
      (match hexVal '0', hexVal '0', hexVal (hexChar a), hexVal (hexChar b) with
       | some x1, some x2, some x3, some x4 =>
         (parseStringBody s).map
           (fun p => (Char.ofNat (((x1 * 16 + x2) * 16 + x3) * 16 + x4) :: p.1, p.2))
       | _, _, _, _ => none) := rfl
  rw [h0, hva, hvb]
  show (parseStringBody s).map
      (fun p => (Char.ofNat (((0 * 16 + 0) * 16 + a) * 16 + b) :: p.1, p.2)) = _
  rw [show ((0 * 16 + 0) * 16 + a) * 16 + b = 16 * a + b from by ring]

theorem psb_plain (c : Char) (hq : c ≠ '"') (hb : c ≠ '\\') (hc : ¬ c.toNat < 32)
    (s : List Char) :
    parseStringBody (c :: s) =
      (parseStringBody s).map (fun p => (c :: p.1, p.2)) := by
  simp only [parseStringBody, if_neg hq, if_neg hb, if_neg hc]

/-- Escaping, then decoding, a string body is the identity: the parser
undoes `escChar` character by character and stops at the closing quote. -/
theorem parseStringBody_escList (cs : List Char) :
    ∀ rest, parseStringBody (escList cs ++ '"' :: rest) = some (cs, rest) := by
  induction cs with
  | nil => intro rest; exact psb_quote rest
  | cons c cs ih =>
    intro rest
    rw [show escList (c :: cs) = escChar c ++ escList cs from rfl, List.append_assoc]
    by_cases h1 : c = '\\'
    · subst h1
      rw [show escChar '\\' = ['\\', '\\'] from rfl]
      rw [show (['\\', '\\'] : List Char) ++ (escList cs ++ '"' :: rest) =
        '\\' :: '\\' :: (escList cs ++ '"' :: rest) from rfl]
      rw [psb_esc_bs, ih rest]
      rfl
    by_cases h2 : c = '"'
    · subst h2
      rw [show escChar '"' = ['\\', '"'] from rfl]
      rw [show (['\\', '"'] : List Char) ++ (escList cs ++ '"' :: rest) =
        '\\' :: '"' :: (escList cs ++ '"' :: rest) from rfl]
      rw [psb_esc_quote, ih rest]
      rfl
    by_cases h3 : c = '\n'
    · subst h3
      rw [show escChar '\n' = ['\\', 'n'] from rfl]
      rw [show (['\\', 'n'] : List Char) ++ (escList cs ++ '"' :: rest) =
        '\\' :: 'n' :: (escList cs ++ '"' :: rest) from rfl]
      rw [psb_esc_n, ih rest]
      rfl
    by_cases h4 : c = '\t'
    · subst h4
      rw [show escChar '\t' = ['\\', 't'] from rfl]
      rw [show (['\\', 't'] : List Char) ++ (escList cs ++ '"' :: rest) =
        '\\' :: 't' :: (escList cs ++ '"' :: rest) from rfl]
      rw [psb_esc_t, ih rest]
      rfl
    by_cases h5 : c = '\r'
    · subst h5
      rw [show escChar '\r' = ['\\', 'r'] from rfl]
      rw [show (['\\', 'r'] : List Char) ++ (escList cs ++ '"' :: rest) =
        '\\' :: 'r' :: (escList cs ++ '"' :: rest) from rfl]
      rw [psb_esc_r, ih rest]
      rfl
    by_cases h6 : c = '\x08'
    · subst h6
      rw [show escChar '\x08' = ['\\', 'b'] from rfl]
      rw [show (['\\', 'b'] : List Char) ++ (escList cs ++ '"' :: rest) =
        '\\' :: 'b' :: (escList cs ++ '"' :: rest) from rfl]
      rw [psb_esc_b, ih rest]
      rfl
    by_cases h7 : c = '\x0c'
    · subst h7
      rw [show escChar '\x0c' = ['\\', 'f'] from rfl]
      rw [show (['\\', 'f'] : List Char) ++ (escList cs ++ '"' :: rest) =
        '\\' :: 'f' :: (escList cs ++ '"' :: rest) from rfl]
      rw [psb_esc_f, ih rest]
      rfl
    by_cases h8 : c.toNat < 32
    · rw [show escChar c =
        ['\\', 'u', '0', '0', hexChar (c.toNat / 16), hexChar (c.toNat % 16)] from by
          simp only [escChar, if_neg h1, if_neg h2, if_neg h3, if_neg h4, if_neg h5,
            if_neg h6, if_neg h7, if_pos h8]]
      rw [show (['\\', 'u', '0', '0', hexChar (c.toNat / 16), hexChar (c.toNat % 16)] :
          List Char) ++ (escList cs ++ '"' :: rest) =
        '\\' :: 'u' :: '0' :: '0' :: hexChar (c.toNat / 16) :: hexChar (c.toNat % 16) ::
          (escList cs ++ '"' :: rest) from rfl]
      rw [psb_u (c.toNat / 16) (c.toNat % 16) (by omega) (Nat.mod_lt _ (by omega)) _]
      rw [ih rest]
      rw [show 16 * (c.toNat / 16) + c.toNat % 16 = c.toNat from Nat.div_add_mod c.toNat 16]
      rw [Char.ofNat_toNat c]
      rfl
    · rw [show escChar c = [c] from by
        simp only [escChar, if_neg h1, if_neg h2, if_neg h3, if_neg h4, if_neg h5,
          if_neg h6, if_neg h7, if_neg h8]]
      rw [List.singleton_append, psb_plain c h2 h1 h8, ih rest]
      rfl

/-- Rebuilding a string from its own character data. -/
theorem string_mk_data (s : String) : String.mk s.data = s := by
  cases s
  rfl

/-- A serialized string literal parses back to the original string. -/
theorem parseStringBody_serStr (s : String) (rest : List Char) :
    serStr s ++ rest = '"' :: (escList s.data ++ '"' :: rest) ∧
    parseStringBody (escList s.data ++ '"' :: rest) = some (s.data, rest) := by
  constructor
  · show ('"' :: (escList s.data ++ ['"'])) ++ rest = _
    simp [List.append_assoc]
  · exact parseStringBody_escList s.data rest

/-!
Sizes, well-formedness, and object reinsertion
-/

mutual
def jsize : JValue → Nat
  | JValue.null => 1
  | JValue.bool _ => 1
  | JValue.num _ => 1
  | JValue.str _ => 1
  | JValue.arr a => 1 + asize a
  | JValue.obj o => 1 + osize o

def asize : JArr → Nat
  | JArr.nil => 1
  | JArr.cons v t => 1 + jsize v + asize t

def osize : JObj → Nat
  | JObj.nil => 1
  | JObj.cons _ v t => 1 + jsize v + osize t
end

/-- Pairwise-distinct keys, as Python dicts guarantee. -/
def keysDistinct : JObj → Bool
  | JObj.nil => true
  | JObj.cons k _ t => !((okeys t).contains k) && keysDistinct t

/- Well-formedness: every object anywhere inside the value has
pairwise-distinct keys. All values decoded from JSON by Python satisfy
this, since a Python dict cannot hold a key twice. -/
mutual
def jwfV : JValue → Bool
  | JValue.arr a => jwfA a
  | JValue.obj o => keysDistinct o && jwfO o
  | _ => true

def jwfA : JArr → Bool
  | JArr.nil => true
  | JArr.cons v t => jwfV v && jwfA t

def jwfO : JObj → Bool
  | JObj.nil => true
  | JObj.cons _ v t => jwfV v && jwfO t
end

def jobjAppend : JObj → JObj → JObj
  | JObj.nil, o => o
  | JObj.cons k v t, o => JObj.cons k v (jobjAppend t o)

theorem jobjAppend_nil : ∀ (o : JObj), jobjAppend o JObj.nil = o
  | JObj.nil => rfl
  | JObj.cons k v t => by simp only [jobjAppend, jobjAppend_nil t]

theorem okeys_jobjAppend : ∀ (a b : JObj), okeys (jobjAppend a b) = okeys a ++ okeys b
  | JObj.nil, b => rfl
  | JObj.cons k v t, b => by
    simp only [jobjAppend, okeys, okeys_jobjAppend t b, List.cons_append]

theorem contains_eq_mem (l : List String) (k : String) :
    l.contains k = true ↔ k ∈ l := by simp

theorem objInsert_append :
    ∀ (o : JObj) (k : String) (v : JValue), k ∉ okeys o →
      objInsert o k v = jobjAppend o (JObj.cons k v JObj.nil)
  | JObj.nil, k, v, _ => rfl
  | JObj.cons k2 v2 t, k, v, hk => by
    simp only [okeys, List.mem_cons] at hk
    push_neg at hk
    simp only [objInsert, jobjAppend]
    rw [if_neg (fun h => hk.1 h.symm), objInsert_append t k v hk.2]

theorem jobjAppend_assoc : ∀ (a b c : JObj),
    jobjAppend (jobjAppend a b) c = jobjAppend a (jobjAppend b c)
  | JObj.nil, b, c => rfl
  | JObj.cons k v t, b, c => by
    simp only [jobjAppend, jobjAppend_assoc t b c]

theorem objReinsertAux_append :
    ∀ (o : JObj) (acc : JObj), keysDistinct o = true →
      (∀ k ∈ okeys o, k ∉ okeys acc) → objReinsertAux acc o = jobjAppend acc o
  | JObj.nil, acc, _, _ => by simp only [objReinsertAux, jobjAppend_nil]
  | JObj.cons k v t, acc, hkd, hdisj => by
    simp only [keysDistinct, Bool.and_eq_true, Bool.not_eq_true'] at hkd
    obtain ⟨hknot, hkd2⟩ := hkd
    have hknotmem : k ∉ okeys t := fun hmem =>
      by rw [(contains_eq_mem (okeys t) k).mpr hmem] at hknot; exact Bool.noConfusion hknot
    have hkacc : k ∉ okeys acc := hdisj k (List.mem_cons_self _ _)
    have hdisj2 : ∀ k2 ∈ okeys t, k2 ∉ okeys (jobjAppend acc (JObj.cons k v JObj.nil)) := by
      intro k2 hk2
      rw [okeys_jobjAppend]
      intro hmem
      rcases List.mem_append.mp hmem with h1 | h1
      · exact hdisj k2 (List.mem_cons_of_mem _ hk2) h1
      · simp only [okeys, List.mem_singleton] at h1
        subst h1
        exact hknotmem hk2
    simp only [objReinsertAux]
    rw [objInsert_append acc k v hkacc,
      objReinsertAux_append t (jobjAppend acc (JObj.cons k v JObj.nil)) hkd2 hdisj2,
      jobjAppend_assoc]
    rfl

/-- Rebuilding a `dict` from pairwise-distinct parsed pairs gives back
exactly those pairs. -/
theorem objReinsert_id (o : JObj) (h : keysDistinct o = true) : objReinsert o = o := by
  unfold objReinsert
  rw [objReinsertAux_append o JObj.nil h (fun k _ hk => by simp [okeys] at hk)]
  rfl

/-!
Head characters and whitespace normalization of the parsers
-/

theorem natDigits_length_pos (n : Nat) : 1 ≤ (natDigits n).length := by
  rcases natDigits_head n with ⟨m, cs, -, he⟩
  rw [he]
  simp

theorem serVal_head (v : JValue) (lvl : Nat) :
    ∃ c cs, serVal v lvl = c :: cs ∧ isWsChar c = false ∧ c ≠ ']' ∧ c ≠ '\x7d' := by
  have hok : ∀ c : Char, c ∈ ['n', 't', 'f', '"', '[', '\x7b', '-'] →
      isWsChar c = false ∧ c ≠ ']' ∧ c ≠ '\x7d' := by decide
  cases v with
  | null => exact ⟨'n', _, rfl, hok _ (by decide)⟩
  | bool b =>
    cases b with
    | true => exact ⟨'t', _, rfl, hok _ (by decide)⟩
    | false => exact ⟨'f', _, rfl, hok _ (by decide)⟩
  | num n =>
    show ∃ c cs, serNum n = c :: cs ∧ _
    by_cases hn : n < 0
    · exact ⟨'-', _, by rw [serNum, if_pos hn], hok _ (by decide)⟩
    · rcases natDigits_head n.toNat with ⟨m, cs, hm, he⟩
      obtain ⟨-, -, hws, hrb, hcb, -⟩ := decChar_facts m hm
      exact ⟨decChar m, cs, by rw [serNum, if_neg hn, he], hws, hrb, hcb⟩
  | str s => exact ⟨'"', _, rfl, hok _ (by decide)⟩
  | arr a =>
    cases a with
    | nil => exact ⟨'[', _, rfl, hok _ (by decide)⟩
    | cons v t => exact ⟨'[', _, rfl, hok _ (by decide)⟩
  | obj o =>
    cases o with
    | nil => exact ⟨'\x7b', _, rfl, hok _ (by decide)⟩
    | cons k v t => exact ⟨'\x7b', _, rfl, hok _ (by decide)⟩

theorem skipWs_serVal (v : JValue) (lvl : Nat) (rest : List Char) :
    skipWs (serVal v lvl ++ rest) = serVal v lvl ++ rest := by
  rcases serVal_head v lvl with ⟨c, cs, he, hws, -, -⟩
  rw [he, List.cons_append, skipWs_cons_of_not_ws hws]

theorem parseValue_ws (f : Nat) (s : List Char) :
    parseValue f s = parseValue f (skipWs s) := by
  cases f with
  | zero => rfl
  | succ f => rw [parseValue.eq_2, parseValue.eq_2, skipWs_idem]

theorem parseArrItems_ws (f : Nat) (s : List Char) :
    parseArrItems f s = parseArrItems f (skipWs s) := by
  cases f with
  | zero => rfl
  | succ f => rw [parseArrItems.eq_2, parseArrItems.eq_2, ← parseValue_ws]

theorem parseObjItems_ws (f : Nat) (s : List Char) :
    parseObjItems f s = parseObjItems f (skipWs s) := by
  cases f with
  | zero => rfl
  | succ f => rw [parseObjItems.eq_2, parseObjItems.eq_2, skipWs_idem]

theorem parseValue_cons_ws {c : Char} (h : isWsChar c = true) (f : Nat) (s : List Char) :
    parseValue f (c :: s) = parseValue f s := by
  rw [parseValue_ws f (c :: s), skipWs_cons_of_ws h, ← parseValue_ws]

theorem parseValue_pad (k : Nat) (f : Nat) (s : List Char) :
    parseValue f (pad k ++ s) = parseValue f s := by
  rw [parseValue_ws f (pad k ++ s), skipWs_pad, ← parseValue_ws]

theorem parseArrItems_cons_ws {c : Char} (h : isWsChar c = true) (f : Nat) (s : List Char) :
    parseArrItems f (c :: s) = parseArrItems f s := by
  rw [parseArrItems_ws f (c :: s), skipWs_cons_of_ws h, ← parseArrItems_ws]

theorem parseObjItems_cons_ws {c : Char} (h : isWsChar c = true) (f : Nat) (s : List Char) :
    parseObjItems f (c :: s) = parseObjItems f s := by
  rw [parseObjItems_ws f (c :: s), skipWs_cons_of_ws h, ← parseObjItems_ws]

theorem parseObjItems_pad (k : Nat) (f : Nat) (s : List Char) :
    parseObjItems f (pad k ++ s) = parseObjItems f s := by
  rw [parseObjItems_ws f (pad k ++ s), skipWs_pad, ← parseObjItems_ws]

theorem parseArrItems_pad (k : Nat) (f : Nat) (s : List Char) :
    parseArrItems f (pad k ++ s) = parseArrItems f s := by
  rw [parseArrItems_ws f (pad k ++ s), skipWs_pad, ← parseArrItems_ws]

/-!
The serialized form is at least as long as the value's size
(so fuel exceeding the document length suffices for parsing).
-/

mutual
theorem jsize_le_len : ∀ (v : JValue) (lvl : Nat), jsize v ≤ (serVal v lvl).length
  | JValue.null, lvl => by simp [jsize, serVal]
  | JValue.bool b, lvl => by cases b <;> simp [jsize, serVal]
  | JValue.num n, lvl => by
    show jsize (JValue.num n) ≤ (serNum n).length
    have h := natDigits_length_pos n.toNat
    have h2 := natDigits_length_pos n.natAbs
    simp only [jsize, serNum]
    split
    · simp
    · exact natDigits_length_pos n.toNat
  | JValue.str s, lvl => by
    simp [jsize, serVal, serStr]
  | JValue.arr JArr.nil, lvl => by simp [jsize, asize, serVal]
  | JValue.arr (JArr.cons v t), lvl => by
    have h := asize_le_len (JArr.cons v t) lvl
    simp only [jsize, serVal, List.length_cons, List.length_append, pad,
      List.length_replicate, List.length_singleton]
    omega
  | JValue.obj JObj.nil, lvl => by simp [jsize, osize, serVal]
  | JValue.obj (JObj.cons k v t), lvl => by
    have h := osize_le_len (JObj.cons k v t) lvl
    simp only [jsize, serVal, List.length_cons, List.length_append, pad,
      List.length_replicate, List.length_singleton]
    omega

theorem asize_le_len : ∀ (a : JArr) (lvl : Nat),
    asize a ≤ (serArrItems a (lvl + 1)).length + 1
  | JArr.nil, lvl => by simp [asize, serArrItems]
  | JArr.cons v JArr.nil, lvl => by
    have hv := jsize_le_len v (lvl + 1)
    simp only [asize, serArrItems, List.length_append, pad, List.length_replicate]
    omega
  | JArr.cons v (JArr.cons w t), lvl => by
    have hv := jsize_le_len v (lvl + 1)
    have ht := asize_le_len (JArr.cons w t) lvl
    simp only [asize] at ht
    simp only [asize, serArrItems, List.length_append, pad, List.length_replicate,
      List.length_cons]
    omega

theorem osize_le_len : ∀ (o : JObj) (lvl : Nat),
    osize o ≤ (serObjItems o (lvl + 1)).length + 1
  | JObj.nil, lvl => by simp [osize, serObjItems]
  | JObj.cons k v JObj.nil, lvl => by
    have hv := jsize_le_len v (lvl + 1)
    simp only [osize, serObjItems, List.length_append, pad, List.length_replicate,
      List.length_cons]
    omega
  | JObj.cons k v (JObj.cons k2 v2 t), lvl => by
    have hv := jsize_le_len v (lvl + 1)
    have ht := osize_le_len (JObj.cons k2 v2 t) lvl
    simp only [osize] at ht
    simp only [osize, serObjItems, List.length_append, pad, List.length_replicate,
      List.length_cons]
    omega
end

theorem jsize_pos (v : JValue) : 1 ≤ jsize v := by
  cases v <;> simp [jsize]

theorem asize_pos (a : JArr) : 1 ≤ asize a := by
  cases a with
  | nil => simp [asize]
  | cons v t => simp only [asize]; omega

theorem osize_pos (o : JObj) : 1 ≤ osize o := by
  cases o with
  | nil => simp [osize]
  | cons k v t => simp only [osize]; omega

/-!
Dispatcher lemmas for `parseValue`
-/

theorem pv_null (f : Nat) (rest : List Char) :
    parseValue (f + 1) ('n' :: 'u' :: 'l' :: 'l' :: rest) = some (JValue.null, rest) := rfl

theorem pv_true (f : Nat) (rest : List Char) :
    parseValue (f + 1) ('t' :: 'r' :: 'u' :: 'e' :: rest) =
      some (JValue.bool true, rest) := rfl

theorem pv_false (f : Nat) (rest : List Char) :
    parseValue (f + 1) ('f' :: 'a' :: 'l' :: 's' :: 'e' :: rest) =
      some (JValue.bool false, rest) := rfl

theorem pv_str (f : Nat) (rest : List Char) :
    parseValue (f + 1) ('"' :: rest) =
      (parseStringBody rest).map (fun p => (JValue.str (String.mk p.1), p.2)) := rfl

theorem pv_arr (f : Nat) (rest : List Char) :
    parseValue (f + 1) ('[' :: rest) =
      (match skipWs rest with
       | [] => none
       | c2 :: r2 =>
         if c2 = ']' then some (JValue.arr JArr.nil, r2)
         else (parseArrItems f (c2 :: r2)).map (fun p => (JValue.arr p.1, p.2))) := rfl

theorem pv_obj (f : Nat) (rest : List Char) :
    parseValue (f + 1) ('\x7b' :: rest) =
      (match skipWs rest with
       | [] => none
       | c2 :: r2 =>
         if c2 = '\x7d' then some (JValue.obj JObj.nil, r2)
         else (parseObjItems f (c2 :: r2)).map
           (fun p => (JValue.obj (objReinsert p.1), p.2))) := rfl

theorem pv_neg (f : Nat) (d : Char) (r2 : List Char) :
    parseValue (f + 1) ('-' :: d :: r2) =
      (if isDigitChar d then
        some (JValue.num (-((parseDigitsAux r2 (d.toNat - 48)).1 : Int)),
          (parseDigitsAux r2 (d.toNat - 48)).2)
      else none) := rfl

theorem pv_digit (f : Nat) (c : Char) (r : List Char)
    (h1 : c ≠ 'n') (h2 : c ≠ 't') (h3 : c ≠ 'f') (h4 : c ≠ '"') (h5 : c ≠ '[')
    (h6 : c ≠ '\x7b') (h7 : c ≠ '-') (h8 : isDigitChar c = true)
    (hw : isWsChar c = false) :
    parseValue (f + 1) (c :: r) =
      some (JValue.num ((parseDigitsAux r (c.toNat - 48)).1 : Int),
        (parseDigitsAux r (c.toNat - 48)).2) := by
  rw [parseValue.eq_2, skipWs_cons_of_not_ws hw]
  dsimp only
  rw [if_neg h1, if_neg h2, if_neg h3, if_neg h4, if_neg h5, if_neg h6, if_neg h7,
    if_pos h8]

theorem noDigit_nil : noDigitHeadB [] = true := rfl

theorem noDigit_nl (x : List Char) : noDigitHeadB ('\n' :: x) = true := rfl

theorem noDigit_comma (x : List Char) : noDigitHeadB (',' :: x) = true := rfl

/-- Unrolling the first digit of a serialized number: the scan finishes
with the whole number and the untouched suffix. -/
theorem parseDigitsAux_head (n m : Nat) (cs rest : List Char)
    (he : natDigits n = decChar m :: cs) (hm : m < 10)
    (hrest : noDigitHeadB rest = true) :
    parseDigitsAux (cs ++ rest) ((decChar m).toNat - 48) = (n, rest) := by
  have h0 := parseDigitsAux_complete n rest hrest
  rw [he] at h0
  obtain ⟨hdig, -, -⟩ := decChar_facts m hm
  simp only [List.cons_append, parseDigitsAux, hdig, if_true] at h0
  simpa using h0

/-- The first item of a serialized array item list surfaces after
whitespace skipping. -/
theorem skipWs_serArrItems_cons (v : JValue) (t : JArr) (lvl : Nat) (X : List Char) :
    ∃ y, serArrItems (JArr.cons v t) lvl ++ X = pad lvl ++ (serVal v lvl ++ y) ∧
      skipWs (serArrItems (JArr.cons v t) lvl ++ X) = serVal v lvl ++ y := by
  cases t with
  | nil =>
    refine ⟨X, ?_, ?_⟩
    · show (pad lvl ++ serVal v lvl) ++ X = _
      rw [List.append_assoc]
    · show skipWs ((pad lvl ++ serVal v lvl) ++ X) = _
      rw [List.append_assoc, skipWs_pad, skipWs_serVal]
  | cons w t2 =>
    refine ⟨',' :: '\n' :: (serArrItems (JArr.cons w t2) lvl ++ X), ?_, ?_⟩
    · show (pad lvl ++ (serVal v lvl ++ ',' :: '\n' :: serArrItems (JArr.cons w t2) lvl))
        ++ X = _
      simp [List.append_assoc]
    · show skipWs ((pad lvl ++ (serVal v lvl ++ ',' :: '\n' ::
        serArrItems (JArr.cons w t2) lvl)) ++ X) = _
      simp only [List.append_assoc, List.cons_append]
      rw [skipWs_pad, skipWs_serVal]

/-- The first key of a serialized object member list surfaces after
whitespace skipping, opened by its quote. -/
theorem skipWs_serObjItems_cons (k : String) (v : JValue) (t : JObj) (lvl : Nat)
    (X : List Char) :
    ∃ y, skipWs (serObjItems (JObj.cons k v t) lvl ++ X) = '"' :: y ∧
      serObjItems (JObj.cons k v t) lvl ++ X = pad lvl ++ ('"' :: y) := by
  cases t with
  | nil =>
    refine ⟨escList k.data ++ '"' :: (':' :: ' ' :: (serVal v lvl ++ X)), ?_, ?_⟩
    · show skipWs ((pad lvl ++ (serStr k ++ ':' :: ' ' :: serVal v lvl)) ++ X) = _
      simp only [List.append_assoc, List.cons_append, serStr]
      rw [skipWs_pad, skipWs_cons_of_not_ws (by decide)]
      simp [List.append_assoc]
    · show (pad lvl ++ (serStr k ++ ':' :: ' ' :: serVal v lvl)) ++ X = _
      simp only [List.append_assoc, List.cons_append, serStr]
      simp [List.append_assoc]
  | cons k2 v2 t2 =>
    refine ⟨escList k.data ++ '"' :: (':' :: ' ' :: (serVal v lvl ++ ',' :: '\n' ::
      (serObjItems (JObj.cons k2 v2 t2) lvl ++ X))), ?_, ?_⟩
    · show skipWs ((pad lvl ++ (serStr k ++ ':' :: ' ' :: (serVal v lvl ++ ',' :: '\n' ::
        serObjItems (JObj.cons k2 v2 t2) lvl))) ++ X) = _
      simp only [List.append_assoc, List.cons_append, serStr]
      rw [skipWs_pad, skipWs_cons_of_not_ws (by decide)]
      simp [List.append_assoc]
    · show (pad lvl ++ (serStr k ++ ':' :: ' ' :: (serVal v lvl ++ ',' :: '\n' ::
        serObjItems (JObj.cons k2 v2 t2) lvl))) ++ X = _
      simp only [List.append_assoc, List.cons_append, serStr]
      simp [List.append_assoc]

/-!
The serializer/parser round trip
-/

mutual
/-- Parsing a serialized value consumes exactly its serialization. -/
theorem parseValue_serVal : ∀ (v : JValue) (fuel lvl : Nat) (rest : List Char),
    jsize v ≤ fuel → jwfV v = true → noDigitHeadB rest = true →
    parseValue fuel (serVal v lvl ++ rest) = some (v, rest)
  | JValue.null, fuel, lvl, rest, hs, _, _ => by
    cases fuel with
    | zero => simp [jsize] at hs
    | succ f => exact pv_null f rest
  | JValue.bool true, fuel, lvl, rest, hs, _, _ => by
    cases fuel with
    | zero => simp [jsize] at hs
    | succ f => exact pv_true f rest
  | JValue.bool false, fuel, lvl, rest, hs, _, _ => by
    cases fuel with
    | zero => simp [jsize] at hs
    | succ f => exact pv_false f rest
  | JValue.num n, fuel, lvl, rest, hs, _, hr => by
    cases fuel with
    | zero => simp [jsize] at hs
    | succ f =>
      show parseValue (f + 1) (serNum n ++ rest) = some (JValue.num n, rest)
      by_cases hn : n < 0
      · rcases natDigits_head n.natAbs with ⟨m, cs, hm, he⟩
        obtain ⟨hdig, -⟩ := decChar_facts m hm
        rw [show serNum n = '-' :: natDigits n.natAbs from by rw [serNum, if_pos hn], he]
        rw [show ('-' :: (decChar m :: cs)) ++ rest = '-' :: decChar m :: (cs ++ rest)
          from rfl]
        rw [pv_neg f (decChar m) (cs ++ rest), if_pos hdig,
          parseDigitsAux_head n.natAbs m cs rest he hm hr]
        show some (JValue.num (-(n.natAbs : Int)), rest) = _
        rw [show -((n.natAbs : Int)) = n from by omega]
      · rcases natDigits_head n.toNat with ⟨m, cs, hm, he⟩
        obtain ⟨hdig, -, hws, -, -, -, hcn, hct, hcf, hcq, hcb, hcc, hcm⟩ :=
          decChar_facts m hm
        rw [show serNum n = natDigits n.toNat from by rw [serNum, if_neg hn], he,
          List.cons_append]
        rw [pv_digit f (decChar m) (cs ++ rest) hcn hct hcf hcq hcb hcc hcm hdig hws,
          parseDigitsAux_head n.toNat m cs rest he hm hr]
        show some (JValue.num ((n.toNat : Int)), rest) = _
        rw [Int.toNat_of_nonneg (le_of_not_lt hn)]
  | JValue.str s, fuel, lvl, rest, hs, _, _ => by
    cases fuel with
    | zero => simp [jsize] at hs
    | succ f =>
      show parseValue (f + 1) (serStr s ++ rest) = _
      rw [show serStr s ++ rest = '"' :: (escList s.data ++ '"' :: rest) from by
        simp [serStr, List.append_assoc]]
      rw [pv_str, parseStringBody_escList s.data rest]
      show some (JValue.str (String.mk s.data), rest) = _
      rw [string_mk_data]
  | JValue.arr JArr.nil, fuel, lvl, rest, hs, _, _ => by
    cases fuel with
    | zero => simp [jsize, asize] at hs
    | succ f =>
      show parseValue (f + 1) ('[' :: ']' :: rest) = _
      rw [pv_arr, skipWs_cons_of_not_ws (by decide)]
      dsimp only
      rw [if_pos rfl]
  | JValue.arr (JArr.cons v t), fuel, lvl, rest, hs, hw, _ => by
    cases fuel with
    | zero => simp [jsize] at hs
    | succ f =>
      have hs2 : asize (JArr.cons v t) ≤ f := by
        simp only [jsize] at hs
        omega
      have hw2 : jwfA (JArr.cons v t) = true := by simpa [jwfV] using hw
      rw [show serVal (JValue.arr (JArr.cons v t)) lvl ++ rest =
        '[' :: '\n' :: (serArrItems (JArr.cons v t) (lvl + 1) ++
          ('\n' :: (pad lvl ++ ']' :: rest))) from by
        simp [serVal, List.append_assoc]]
      rw [pv_arr f, skipWs_cons_of_ws (by decide)]
      obtain ⟨y, hAX, hskip⟩ := skipWs_serArrItems_cons v t (lvl + 1)
        ('\n' :: (pad lvl ++ ']' :: rest))
      rw [hskip]
      rcases serVal_head v (lvl + 1) with ⟨c2, cs2, hve, hws2, hnb2, -⟩
      rw [hve, List.cons_append]
      dsimp only
      rw [if_neg hnb2]
      have hf1 : 1 ≤ f := le_trans (asize_pos _) hs2
      obtain ⟨f2, rfl⟩ : ∃ f2, f = f2 + 1 := ⟨f - 1, by omega⟩
      have harr : parseArrItems (f2 + 1) (c2 :: (cs2 ++ y)) =
          parseArrItems (f2 + 1) (serArrItems (JArr.cons v t) (lvl + 1) ++
            ('\n' :: (pad lvl ++ ']' :: rest))) := by
        rw [hAX, parseArrItems_pad, hve, List.cons_append]
      rw [harr, parseArrItems_serArrItems (JArr.cons v t) (f2 + 1) lvl rest
        (fun hcontra => JArr.noConfusion hcontra) hs2 hw2]
      rfl
  | JValue.obj JObj.nil, fuel, lvl, rest, hs, _, _ => by
    cases fuel with
    | zero => simp [jsize, osize] at hs
    | succ f =>
      show parseValue (f + 1) ('\x7b' :: '\x7d' :: rest) = _
      rw [pv_obj, skipWs_cons_of_not_ws (by decide)]
      dsimp only
      rw [if_pos rfl]
  | JValue.obj (JObj.cons k v t), fuel, lvl, rest, hs, hw, _ => by
    cases fuel with
    | zero => simp [jsize] at hs
    | succ f =>
      have hs2 : osize (JObj.cons k v t) ≤ f := by
        simp only [jsize] at hs
        omega
      have hw0 : keysDistinct (JObj.cons k v t) = true ∧ jwfO (JObj.cons k v t) = true := by
        simpa [jwfV, Bool.and_eq_true] using hw
      obtain ⟨hkd, hw2⟩ := hw0
      rw [show serVal (JValue.obj (JObj.cons k v t)) lvl ++ rest =
        '\x7b' :: '\n' :: (serObjItems (JObj.cons k v t) (lvl + 1) ++
          ('\n' :: (pad lvl ++ '\x7d' :: rest))) from by
        simp [serVal, List.append_assoc]]
      rw [pv_obj f, skipWs_cons_of_ws (by decide)]
      obtain ⟨y, hskip, hIX⟩ := skipWs_serObjItems_cons k v t (lvl + 1)
        ('\n' :: (pad lvl ++ '\x7d' :: rest))
      rw [hskip]
      dsimp only
      rw [if_neg (by decide)]
      have hf1 : 1 ≤ f := le_trans (osize_pos _) hs2
      obtain ⟨f2, rfl⟩ : ∃ f2, f = f2 + 1 := ⟨f - 1, by omega⟩
      have hobj : parseObjItems (f2 + 1) ('"' :: y) =
          parseObjItems (f2 + 1) (serObjItems (JObj.cons k v t) (lvl + 1) ++
            ('\n' :: (pad lvl ++ '\x7d' :: rest))) := by
        rw [hIX, parseObjItems_pad]
      rw [hobj, parseObjItems_serObjItems (JObj.cons k v t) (f2 + 1) lvl rest
        (fun hcontra => JObj.noConfusion hcontra) hs2 hw2]
      show some (JValue.obj (objReinsert (JObj.cons k v t)), rest) = _
      rw [objReinsert_id _ hkd]

/-- Parsing the serialized items of a non-empty array consumes them and
the closing bracket. -/
theorem parseArrItems_serArrItems : ∀ (a : JArr) (fuel lvl : Nat) (rest : List Char),
    a ≠ JArr.nil → asize a ≤ fuel → jwfA a = true →
    parseArrItems fuel (serArrItems a (lvl + 1) ++ ('\n' :: (pad lvl ++ ']' :: rest))) =
      some (a, rest)
  | JArr.nil, _, _, _, hne, _, _ => absurd rfl hne
  | JArr.cons v t, fuel, lvl, rest, _, hs, hw => by
    cases fuel with
    | zero =>
      simp only [asize] at hs
      omega
    | succ f =>
      have hsv : jsize v ≤ f := by
        simp only [asize] at hs
        have := asize_pos t
        omega
      have hww : jwfV v = true ∧ jwfA t = true := by
        simpa [jwfA, Bool.and_eq_true] using hw
      obtain ⟨hwv, hwt⟩ := hww
      rw [parseArrItems.eq_2]
      cases t with
      | nil =>
        rw [show serArrItems (JArr.cons v JArr.nil) (lvl + 1) ++
            ('\n' :: (pad lvl ++ ']' :: rest)) =
          pad (lvl + 1) ++ (serVal v (lvl + 1) ++ ('\n' :: (pad lvl ++ ']' :: rest)))
          from by simp [serArrItems, List.append_assoc]]
        rw [parseValue_pad (lvl + 1) f,
          parseValue_serVal v f (lvl + 1) _ hsv hwv (noDigit_nl _)]
        dsimp only
        rw [skipWs_cons_of_ws (by decide), skipWs_pad,
          skipWs_cons_of_not_ws (by decide)]
        dsimp only
        rw [if_pos rfl]
      | cons w t2 =>
        rw [show serArrItems (JArr.cons v (JArr.cons w t2)) (lvl + 1) ++
            ('\n' :: (pad lvl ++ ']' :: rest)) =
          pad (lvl + 1) ++ (serVal v (lvl + 1) ++ (',' :: '\n' ::
            (serArrItems (JArr.cons w t2) (lvl + 1) ++
              ('\n' :: (pad lvl ++ ']' :: rest)))))
          from by simp [serArrItems, List.append_assoc]]
        rw [parseValue_pad (lvl + 1) f,
          parseValue_serVal v f (lvl + 1) _ hsv hwv (noDigit_comma _)]
        dsimp only
        rw [skipWs_cons_of_not_ws (by decide)]
        dsimp only
        rw [if_neg (by decide), if_pos rfl]
        have hst : asize (JArr.cons w t2) ≤ f := by
          simp only [asize] at hs ⊢
          have := jsize_pos v
          omega
        have hf1 : 1 ≤ f := le_trans (jsize_pos v) hsv
        obtain ⟨f2, rfl⟩ : ∃ f2, f = f2 + 1 := ⟨f - 1, by omega⟩
        rw [parseArrItems_cons_ws (by decide) (f2 + 1),
          parseArrItems_serArrItems (JArr.cons w t2) (f2 + 1) lvl rest
            (fun hcontra => JArr.noConfusion hcontra) hst hwt]

/-- Parsing the serialized members of a non-empty object consumes them
and the closing brace. -/
theorem parseObjItems_serObjItems : ∀ (o : JObj) (fuel lvl : Nat) (rest : List Char),
    o ≠ JObj.nil → osize o ≤ fuel → jwfO o = true →
    parseObjItems fuel (serObjItems o (lvl + 1) ++ ('\n' :: (pad lvl ++ '\x7d' :: rest))) =
      some (o, rest)
  | JObj.nil, _, _, _, hne, _, _ => absurd rfl hne
  | JObj.cons k v t, fuel, lvl, rest, _, hs, hw => by
    cases fuel with
    | zero =>
      simp only [osize] at hs
      omega
    | succ f =>
      have hsv : jsize v ≤ f := by
        simp only [osize] at hs
        have := osize_pos t
        omega
      have hww : jwfV v = true ∧ jwfO t = true := by
        simpa [jwfO, Bool.and_eq_true] using hw
      obtain ⟨hwv, hwt⟩ := hww
      rw [parseObjItems.eq_2]
      cases t with
      | nil =>
        rw [show serObjItems (JObj.cons k v JObj.nil) (lvl + 1) ++
            ('\n' :: (pad lvl ++ '\x7d' :: rest)) =
          pad (lvl + 1) ++ ('"' :: (escList k.data ++ '"' :: (':' :: ' ' ::
            (serVal v (lvl + 1) ++ ('\n' :: (pad lvl ++ '\x7d' :: rest))))))
          from by simp [serObjItems, serStr, List.append_assoc]]
        rw [skipWs_pad, skipWs_cons_of_not_ws (by decide)]
        dsimp only
        rw [if_pos rfl, parseStringBody_escList k.data]
        dsimp only
        rw [skipWs_cons_of_not_ws (by decide)]
        dsimp only
        rw [if_pos rfl]
        rw [parseValue_cons_ws (by decide) f,
          parseValue_serVal v f (lvl + 1) _ hsv hwv (noDigit_nl _)]
        dsimp only
        rw [skipWs_cons_of_ws (by decide), skipWs_pad,
          skipWs_cons_of_not_ws (by decide)]
        dsimp only
        rw [if_pos rfl, string_mk_data]
      | cons k2 v2 t2 =>
        rw [show serObjItems (JObj.cons k v (JObj.cons k2 v2 t2)) (lvl + 1) ++
            ('\n' :: (pad lvl ++ '\x7d' :: rest)) =
          pad (lvl + 1) ++ ('"' :: (escList k.data ++ '"' :: (':' :: ' ' ::
            (serVal v (lvl + 1) ++ (',' :: '\n' ::
              (serObjItems (JObj.cons k2 v2 t2) (lvl + 1) ++
                ('\n' :: (pad lvl ++ '\x7d' :: rest))))))))
          from by simp [serObjItems, serStr, List.append_assoc]]
        rw [skipWs_pad, skipWs_cons_of_not_ws (by decide)]
        dsimp only
        rw [if_pos rfl, parseStringBody_escList k.data]
        dsimp only
        rw [skipWs_cons_of_not_ws (by decide)]
        dsimp only
        rw [if_pos rfl]
        rw [parseValue_cons_ws (by decide) f,
          parseValue_serVal v f (lvl + 1) _ hsv hwv (noDigit_comma _)]
        dsimp only
        rw [skipWs_cons_of_not_ws (by decide)]
        dsimp only
        rw [if_neg (by decide), if_pos rfl]
        have hst : osize (JObj.cons k2 v2 t2) ≤ f := by
          simp only [osize] at hs ⊢
          have := jsize_pos v
          omega
        have hf1 : 1 ≤ f := le_trans (jsize_pos v) hsv
        obtain ⟨f2, rfl⟩ : ∃ f2, f = f2 + 1 := ⟨f - 1, by omega⟩
        rw [parseObjItems_cons_ws (by decide) (f2 + 1),
          parseObjItems_serObjItems (JObj.cons k2 v2 t2) (f2 + 1) lvl rest
            (fun hcontra => JObj.noConfusion hcontra) hst hwt]
end

/-- C7: for every sequence of joke records (in particular every
deduplicated sequence), the exact file content written by `save_jokes`
(`json.dump` with `indent=2, ensure_ascii=False`), when parsed back by
`json.loads`, equals that sequence exactly. The hypothesis states that
every object inside the records has pairwise-distinct keys, which is an
invariant of every value a Python dict can represent. -/
theorem saved_file_round_trip (jokes : List JValue)
    (hwf : jwfV (JValue.arr (listToJArr jokes)) = true) :
    json_loads (save_jokes_content jokes) = some (JValue.arr (listToJArr jokes)) := by
  unfold json_loads save_jokes_content
  have hsize : jsize (JValue.arr (listToJArr jokes)) ≤
      (serVal (JValue.arr (listToJArr jokes)) 0).length + 1 :=
    le_trans (jsize_le_len _ 0) (Nat.le_succ _)
  have h := parseValue_serVal (JValue.arr (listToJArr jokes))
    ((serVal (JValue.arr (listToJArr jokes)) 0).length + 1) 0 [] hsize hwf noDigit_nil
  rw [List.append_nil] at h
  rw [h]
  rfl

set_option maxRecDepth 100000 in
/-- Witness for C7 at the deduplicated `demoDup` (two records with ids,
strings, and nested fields). -/
theorem saved_file_round_trip_witness :
    jwfV (JValue.arr (listToJArr (deduplicate_jokes demoDup))) = true ∧
    json_loads (save_jokes_content (deduplicate_jokes demoDup)) =
      some (JValue.arr (listToJArr (deduplicate_jokes demoDup))) :=
  ⟨by decide, saved_file_round_trip (deduplicate_jokes demoDup) (by decide)⟩

end JokeCamera
